import Mathlib

/-!
Verification of the Kenya-Law frontend's two decision-logic utilities:
the API base-URL resolver (`detectBasePath` / `getApiBaseUrl`, from
`src/utils/api.ts` as shipped inside `deploy-frontend.sh`) and the AI-answer
normalizer / splitter (`normalizeResponseText` and the guidance split in
`handleSubmit`, from `src/frontend/src/pages/AskAI.tsx`).

JavaScript strings are modelled as Lean `String`s, with the character-level
operations (trim, split, replace, toLowerCase) carried out on `List Char`
so that every definition is executable and structurally recursive.
-/

namespace KenyaLaw

/-! ### JavaScript string primitives, modelled on `List Char` -/

/-- The whitespace test used by JS `trim` and `\s` (ASCII fragment). -/
def isWs (c : Char) : Bool := c.isWhitespace

/-- JS `String.prototype.trimStart` on the character list. -/
def trimLeftL (l : List Char) : List Char := l.dropWhile isWs

/-- JS `String.prototype.trimEnd` on the character list. -/
def trimRightL (l : List Char) : List Char := (l.reverse.dropWhile isWs).reverse

/-- JS `String.prototype.trim` on the character list. -/
def trimL (l : List Char) : List Char := trimRightL (trimLeftL l)

/-- JS `String.prototype.trim`. -/
def jsTrim (s : String) : String := ⟨trimL s.data⟩

/-- JS `String.prototype.toLowerCase` on the character list (ASCII). -/
def lowerL (l : List Char) : List Char := l.map Char.toLower

/-- JS `String.prototype.endsWith`. -/
def strEndsWith (s suf : String) : Bool := suf.data.isSuffixOf s.data

/-- JS `String.prototype.slice(0, -1)`: drop the final character. -/
def dropLastChar (s : String) : String := ⟨s.data.dropLast⟩

/-- One global regex-replace pass `.replace(/\\x/g, r)` for a two-character
escape `backslash, c`: scan left to right, replace each non-overlapping
occurrence of `['\\', c]` by `r`, never rescanning the replacement. -/
def repl (c r : Char) : List Char → List Char
  | [] => []
  | [a] => [a]
  | a :: b :: rest =>
    if a = '\\' ∧ b = c then r :: repl c r rest
    else a :: repl c r (b :: rest)

/-! ### `normalizeResponseText` (AskAI.tsx lines 37-45) -/

/-- The literal marker `content=` tested by `/^content=/i`. -/
def contentMarker : List Char := "content=".data

/-- `/^content=/i.test(normalized)` : case-insensitive prefix test. -/
def hasContentMarker (l : List Char) : Bool := contentMarker.isPrefixOf (lowerL l)

/-- The optional single quote immediately after the marker,
from `replace(/^content='?/i, '')`. -/
def dropOptQuote : List Char → List Char
  | '\x27' :: rest => rest
  | l => l

/-- `replace(/'$/i, '')` : strip one trailing single quote if present. -/
def stripTrailingQuote (l : List Char) : List Char :=
  if l.getLast? = some '\x27' then l.dropLast else l

/-- Character-list core of `normalizeResponseText` (AskAI.tsx 37-45):
trim; if the text starts (case-insensitively) with `content=`, strip the
marker, an optional following quote and one trailing quote; replace the
literal escapes `\n` then `\t` by real newline and tab; trim again. -/
def normalizeL (l : List Char) : List Char :=
  let n0 := trimL l
  let n1 :=
    if hasContentMarker n0 then
      stripTrailingQuote (dropOptQuote (n0.drop 8))
    else n0
  trimL (repl 't' '\t' (repl 'n' '\n' n1))

/-- `normalizeResponseText` from AskAI.tsx lines 37-45, for a string input. -/
def normalizeResponseText (text : String) : String := ⟨normalizeL text.data⟩

/-- `normalizeResponseText` including the `(text || '')` coercion on line 38,
which maps a missing (`null`/`undefined`, here `none`) or empty input to
the empty string before trimming. -/
def normalizeResponseTextJS (text : Option String) : String :=
  normalizeResponseText
    (match text with
     | some s => if s = "" then "" else s
     | none => "")

/-! ### The guidance split (AskAI.tsx lines 159-170) -/

/-- JS `rawAnswer.split('---')`: split on each leftmost non-overlapping
occurrence of the literal three-character delimiter. -/
def splitDash : List Char → List (List Char)
  | '-' :: '-' :: '-' :: rest => [] :: splitDash rest
  | c :: rest =>
    match splitDash rest with
    | h :: t => (c :: h) :: t
    | [] => [[c]]
  | [] => [[]]

/-- `rawAnswer.split('---').map(seg => seg.trim()).filter(Boolean)`
(AskAI.tsx line 163). -/
def guidanceSegments (raw : String) : List String :=
  (((splitDash raw.data).map trimL).filter (fun l => !l.isEmpty)).map
    (fun l => (⟨l⟩ : String))

/-- JS `Array.prototype.join(sep)`. -/
def joinSep (sep : String) : List String → String
  | [] => ""
  | [s] => s
  | s :: rest => s ++ sep ++ joinSep sep rest

/-- `guidanceCandidate.replace(/^System guidance applied:\s*/i, '')`
(AskAI.tsx line 168): strip the case-insensitive leading label and any
following whitespace. -/
def stripGuidanceLabel (s : String) : String :=
  let label := "system guidance applied:".data
  if label.isPrefixOf (lowerL s.data) then
    ⟨(s.data.drop label.length).dropWhile isWs⟩
  else s

/-- The answer-splitting logic of `handleSubmit` (AskAI.tsx lines 159-170):
returns the `mainContent` and the optional `systemGuidance` computed for
a raw `answer` string. -/
def splitAnswer (rawAnswer : String) : String × Option String :=
  let segs := guidanceSegments rawAnswer
  if 1 < segs.length then
    (normalizeResponseText (segs.headD ""),
      some (normalizeResponseText
        (stripGuidanceLabel (joinSep " --- " (segs.drop 1)))))
  else
    (normalizeResponseText rawAnswer, none)

/-! ### `detectBasePath` / `getApiBaseUrl` (api.ts inside deploy-frontend.sh) -/

/-- `const APP_ROUTES = ['', 'login', 'ask-ai', 'uploads', 'reports', 'dashboard']`
(api.ts line 127), as character lists. -/
def APP_ROUTES : List (List Char) :=
  [[], "login".data, "ask-ai".data, "uploads".data, "reports".data,
    "dashboard".data]

/-- JS `cleanPath.split('/')`. -/
def splitSlash : List Char → List (List Char)
  | '/' :: rest => [] :: splitSlash rest
  | c :: rest =>
    match splitSlash rest with
    | h :: t => (c :: h) :: t
    | [] => [[c]]
  | [] => [[]]

/-- `pathname.replace(/^\/+|\/+$/g, '')`: strip leading and trailing
slashes. -/
def stripEdgeSlashes (l : List Char) : List Char :=
  ((l.dropWhile (fun c => c = '/')).reverse.dropWhile (fun c => c = '/')).reverse

/-- `pathname.replace(/^\/+|\/+$/g, '').split('/').filter(part => part && part !== 'index.html')`
(api.ts lines 138-139). -/
def pathParts (pathname : String) : List (List Char) :=
  (splitSlash (stripEdgeSlashes pathname.data)).filter
    (fun part => !part.isEmpty && !(part == "index.html".data))

/-- `pathParts.findIndex(part => APP_ROUTES.includes(part.toLowerCase()))`
(api.ts line 159); `none` models the JS result `-1`. -/
def findRouteIdx : List (List Char) → Option Nat
  | [] => none
  | part :: rest =>
    if APP_ROUTES.contains (lowerL part) then some 0
    else (findRouteIdx rest).map (· + 1)

/-- The base-tag fallback of `detectBasePath` (api.ts lines 168-181):
`baseHref` is the document base tag's `href` attribute (`none` when no
base tag exists or it has no `href`). Returns the subpath it yields, or
the empty string. -/
def baseTagPath (baseHref : Option String) : String :=
  match baseHref with
  | some href =>
    if href ≠ "" then
      if href ≠ "/" ∧ href.data.head? = some '/' then
        let basePath :=
          if href.data.getLast? = some '/' then href.data.dropLast
          else href.data
        if !basePath.isEmpty then (⟨basePath⟩ : String) else ""
      else ""
    else ""
  | none => ""

/-- `detectBasePath` (api.ts lines 134-182), with the ambient
`window.location.pathname` and document base tag passed explicitly. -/
def detectBasePath (pathname : String) (baseHref : Option String) : String :=
  let parts := pathParts pathname
  if parts.isEmpty then ""
  else
    let firstPart := lowerL (parts.headD [])
    if !(APP_ROUTES.contains firstPart) then
      "/" ++ (⟨parts.headD []⟩ : String)
    else
      if 1 < parts.length then
        match findRouteIdx parts with
        | some routeIndex =>
          if 0 < routeIndex then
            "/" ++ joinSep "/" ((parts.take routeIndex).map
              (fun l => (⟨l⟩ : String)))
          else baseTagPath baseHref
        | none => baseTagPath baseHref
      else baseTagPath baseHref

/-- `getApiBaseUrl` (api.ts lines 187-211), with the ambient configuration
passed explicitly: `apiBaseUrlEnv` models `process.env.REACT_APP_API_BASE_URL`
and `publicUrlEnv` models `process.env.PUBLIC_URL || ''` (the empty string
models an unset variable, matching JS truthiness). -/
def getApiBaseUrl (apiBaseUrlEnv publicUrlEnv : String) (pathname : String)
    (baseHref : Option String) : String :=
  if apiBaseUrlEnv ≠ "" then
    let apiUrl := jsTrim apiBaseUrlEnv
    let cleanUrl := if strEndsWith apiUrl "/" then dropLastChar apiUrl else apiUrl
    if strEndsWith cleanUrl "/api" then cleanUrl else cleanUrl ++ "/api"
  else
    if publicUrlEnv ≠ "" ∧ publicUrlEnv ≠ "/" then
      let cleanBase :=
        if strEndsWith publicUrlEnv "/" then dropLastChar publicUrlEnv
        else publicUrlEnv
      cleanBase ++ "/api"
    else
      detectBasePath pathname baseHref ++ "/api"

/-! ### Spec-side reference definitions -/

/-- Spec-side restatement of the explicit-override tier, following the spec
text: trim the override, strip one trailing slash, and append `/api`
exactly when the cleaned value does not already end with that suffix. -/
def resolveApiBaseOverride (u : String) : String :=
  let t := jsTrim u
  let c := if strEndsWith t "/" then dropLastChar t else t
  if strEndsWith c "/api" then c else c ++ "/api"

/-- The wrapper-cleanup pipeline exactly as the claim describes it for
inputs beginning with `content=`: strip the marker and an optional
following quote, strip one trailing quote, replace the literal escapes,
and trim the result (no initial trim). -/
def describedWrapperCleanup (s : String) : String :=
  ⟨trimL (repl 't' '\t' (repl 'n' '\n'
    (stripTrailingQuote (dropOptQuote (s.data.drop 8)))))⟩

/-- The wrapper-cleanup pipeline amended with the initial whitespace trim
the code performs before testing for and stripping the wrapper. -/
def amendedWrapperCleanup (s : String) : String :=
  ⟨trimL (repl 't' '\t' (repl 'n' '\n'
    (stripTrailingQuote (dropOptQuote ((trimL s.data).drop 8)))))⟩

/-! ### Helper lemmas about the string primitives -/

theorem head?_append_left {l₁ l₂ : List Char} (h : l₁ ≠ []) :
    (l₁ ++ l₂).head? = l₁.head? := by
  cases l₁ with
  | nil => exact absurd rfl h
  | cons x t => rfl

theorem dropWhile_head_not {p : Char → Bool} :
    ∀ {l : List Char} {a : Char}, (l.dropWhile p).head? = some a → p a = false := by
  intro l
  induction l with
  | nil => intro a h; simp [List.dropWhile] at h
  | cons x t ih =>
    intro a h
    cases hx : p x with
    | true =>
      rw [List.dropWhile_cons, if_pos hx] at h
      exact ih h
    | false =>
      rw [List.dropWhile_cons, if_neg (by simp [hx])] at h
      simp only [List.head?_cons, Option.some.injEq] at h
      rw [← h]
      exact hx

theorem dropWhile_eq_self_of_head {p : Char → Bool} {l : List Char}
    (h : ∀ a, l.head? = some a → p a = false) : l.dropWhile p = l := by
  cases l with
  | nil => rfl
  | cons x t => rw [List.dropWhile_cons, if_neg (by simp [h x rfl])]

theorem dropWhile_eq_self_of_all {p : Char → Bool} {m : List Char}
    (h : ∀ c ∈ m, p c = false) : m.dropWhile p = m :=
  dropWhile_eq_self_of_head (fun a ha => by
    cases m with
    | nil => simp at ha
    | cons x t =>
      simp only [List.head?_cons, Option.some.injEq] at ha
      exact ha ▸ h x (by simp))

theorem dropWhile_idem {p : Char → Bool} (l : List Char) :
    (l.dropWhile p).dropWhile p = l.dropWhile p :=
  dropWhile_eq_self_of_head (fun _ h => dropWhile_head_not h)

theorem trimRightL_isPre (l : List Char) : trimRightL l <+: l := by
  rw [← List.reverse_suffix, trimRightL, List.reverse_reverse]
  exact List.dropWhile_suffix _

theorem trimL_isInfix (l : List Char) : trimL l <:+: l :=
  ((trimRightL_isPre (trimLeftL l)).isInfix).trans
    ((List.dropWhile_suffix isWs).isInfix)

theorem trimRightL_head {l : List Char} {a : Char}
    (h : (trimRightL l).head? = some a) : l.head? = some a := by
  obtain ⟨r, hr⟩ := trimRightL_isPre l
  cases htl : trimRightL l with
  | nil => rw [htl] at h; simp at h
  | cons x xs =>
    rw [htl] at h hr
    rw [← hr, head?_append_left (by simp)]
    exact h

theorem trimL_idem (l : List Char) : trimL (trimL l) = trimL l := by
  have h1 : trimLeftL (trimRightL (trimLeftL l)) = trimRightL (trimLeftL l) := by
    apply dropWhile_eq_self_of_head
    intro a ha
    exact dropWhile_head_not (trimRightL_head ha)
  show trimRightL (trimLeftL (trimRightL (trimLeftL l))) = trimRightL (trimLeftL l)
  rw [h1, trimRightL, trimRightL, List.reverse_reverse, dropWhile_idem]

/-! ### Claim C2 -/

/-- Claim C2: when the explicit `REACT_APP_API_BASE_URL` override is supplied
(non-empty, hence truthy), `getApiBaseUrl` ignores the page path, the
build-time public URL and the base tag, and returns the override trimmed,
with one trailing slash removed, with `/api` appended exactly when the
cleaned value does not already end with that suffix. -/
theorem override_tier_matches_spec (u pu path : String) (bt : Option String)
    (h : u ≠ "") :
    getApiBaseUrl u pu path bt = resolveApiBaseOverride u := by
  simp only [getApiBaseUrl, resolveApiBaseOverride, if_pos h]

theorem override_tier_matches_spec_witness :
    ("https://api.example.com/api/" ≠ "") ∧
    getApiBaseUrl "https://api.example.com/api/" "/PatriotAI" "/somewhere"
        (some "/x")
      = resolveApiBaseOverride "https://api.example.com/api/" ∧
    resolveApiBaseOverride "https://api.example.com/api/"
      = "https://api.example.com/api" :=
  ⟨by decide, override_tier_matches_spec _ _ _ _ (by decide), by decide⟩

/-! ### Claims C3 and C4 -/

/-- Claim C3: when splitting the raw answer on `---`, trimming and
discarding empty pieces yields two or more pieces, the handler takes the
first piece (after single-segment cleanup) as the main content and the
remaining pieces, rejoined with a spaced delimiter and with the optional
guidance label stripped before cleanup, as the guidance. -/
theorem split_two_or_more (raw : String)
    (h : 1 < (guidanceSegments raw).length) :
    splitAnswer raw =
      (normalizeResponseText ((guidanceSegments raw).headD ""),
        some (normalizeResponseText (stripGuidanceLabel
          (joinSep " --- " ((guidanceSegments raw).drop 1))))) := by
  simp only [splitAnswer, if_pos h]

theorem split_two_or_more_witness :
    1 < (guidanceSegments
      "Main text --- System guidance applied: Use IRAC format").length ∧
    splitAnswer "Main text --- System guidance applied: Use IRAC format"
      = ("Main text", some "Use IRAC format") :=
  ⟨by decide, (split_two_or_more _ (by decide)).trans (by decide)⟩

/-- Claim C4: when the split yields fewer than two non-empty pieces, the
whole raw answer after single-segment cleanup is the main content and no
guidance is produced. -/
theorem split_single_segment (raw : String)
    (h : ¬ 1 < (guidanceSegments raw).length) :
    splitAnswer raw = (normalizeResponseText raw, none) := by
  simp only [splitAnswer, if_neg h]

theorem split_single_segment_witness :
    ¬ 1 < (guidanceSegments "Main text").length ∧
    splitAnswer "Main text" = ("Main text", none) :=
  ⟨by decide, (split_single_segment _ (by decide)).trans (by decide)⟩

/-! ### Claim C5 -/

/-- Claim C5: with no explicit override and no non-root public URL, a page
path whose first retained segment is not (case-insensitively) a known
route name resolves to `/<firstSegment>/api`, for any base tag. -/
theorem unknown_first_segment_subpath (pathname pu : String)
    (bt : Option String) (hpu : pu = "" ∨ pu = "/")
    (hne : pathParts pathname ≠ [])
    (hroute : APP_ROUTES.contains (lowerL ((pathParts pathname).headD []))
      = false) :
    getApiBaseUrl "" pu pathname bt
      = "/" ++ (⟨(pathParts pathname).headD []⟩ : String) ++ "/api" := by
  obtain ⟨a, t, hat⟩ := List.exists_cons_of_ne_nil hne
  rw [hat] at hroute
  simp only [List.headD_cons] at hroute
  have hmem : lowerL a ∉ APP_ROUTES := by simpa using hroute
  rcases hpu with h | h <;> subst h <;>
    simp [getApiBaseUrl, detectBasePath, hat, hmem]

theorem unknown_first_segment_subpath_witness :
    ((("" : String) = "" ∨ ("" : String) = "/") ∧
     pathParts "/PatriotAI/ask-ai" ≠ [] ∧
     APP_ROUTES.contains (lowerL ((pathParts "/PatriotAI/ask-ai").headD []))
       = false) ∧
    getApiBaseUrl "" "" "/PatriotAI/ask-ai" none = "/PatriotAI/api" :=
  ⟨⟨Or.inl rfl, by decide, by decide⟩,
    (unknown_first_segment_subpath "/PatriotAI/ask-ai" "" none (Or.inl rfl)
      (by decide) (by decide)).trans (by decide)⟩

/-! ### Claim C7 -/

/-- Claim C7 counterexample: with no override and no public URL, the page
path `/login` does not always resolve to `/api` — a document base tag with
an absolute non-root href is consulted and wins. -/
theorem login_path_counterexample :
    getApiBaseUrl "" "" "/login" (some "/PatriotAI") = "/PatriotAI/api" ∧
    getApiBaseUrl "" "" "/login" (some "/PatriotAI") ≠ "/api" :=
  ⟨by decide, by decide⟩

/-- Claim C7 (amended): when neither the explicit override nor a non-root
build-time public URL is set and the document declares no base tag, the
resolver returns `/api` for the page path `/login`. -/
theorem login_path_amended (pu : String) (h : pu = "" ∨ pu = "/") :
    getApiBaseUrl "" pu "/login" none = "/api" := by
  rcases h with h | h <;> subst h <;> decide

theorem login_path_amended_witness :
    (("" : String) = "" ∨ ("" : String) = "/") ∧
    getApiBaseUrl "" "" "/login" none = "/api" :=
  ⟨Or.inl rfl, login_path_amended "" (Or.inl rfl)⟩

/-! ### Claim C8 -/

/-- Claim C8: `normalizeResponseText` is total on every input (the Lean
embedding is a total function, mirroring the code's never-throw
behaviour); a missing (`null`/`undefined`) input and the empty string are
both mapped to the empty string, and a present string input is processed
exactly like the plain string. -/
theorem normalize_null_and_empty_safe :
    normalizeResponseTextJS none = "" ∧
    normalizeResponseTextJS (some "") = "" ∧
    ∀ s : String, normalizeResponseTextJS (some s) = normalizeResponseText s := by
  refine ⟨by decide, by decide, ?_⟩
  intro s
  by_cases h : s = ""
  · subst h; decide
  · simp [normalizeResponseTextJS, h]

/-! ### Claim C9 -/

theorem strEndsWith_append_api (p : String) :
    strEndsWith (p ++ "/api") "/api" = true := by
  rw [strEndsWith, String.data_append]
  exact List.isSuffixOf_iff_suffix.mpr (List.suffix_append _ _)

/-- Claim C9: in every precedence tier and for every combination of
override, public URL, page path and base tag, `getApiBaseUrl` returns a
string ending with the four-character suffix `/api`. -/
theorem api_suffix_all_tiers (u pu p : String) (bt : Option String) :
    strEndsWith (getApiBaseUrl u pu p bt) "/api" = true := by
  rw [getApiBaseUrl]
  by_cases h1 : u ≠ ""
  · rw [if_pos h1]
    by_cases h2 : strEndsWith
        (if strEndsWith (jsTrim u) "/" then dropLastChar (jsTrim u)
         else jsTrim u) "/api" = true
    · simp [h2]
    · simp only [h2]
      simp only [Bool.false_eq_true, if_false, if_neg h2]
      exact strEndsWith_append_api _
  · rw [if_neg h1]
    by_cases h2 : pu ≠ "" ∧ pu ≠ "/"
    · rw [if_pos h2]
      exact strEndsWith_append_api _
    · rw [if_neg h2]
      exact strEndsWith_append_api _

/-! ### Claim C10 -/

theorem detectBasePath_known_route (p : String) (bt : Option String)
    (hne : pathParts p ≠ [])
    (hroute : APP_ROUTES.contains (lowerL ((pathParts p).headD [])) = true) :
    detectBasePath p bt = baseTagPath bt := by
  obtain ⟨a, t, hat⟩ := List.exists_cons_of_ne_nil hne
  rw [hat] at hroute
  simp only [List.headD_cons] at hroute
  have hmem : lowerL a ∈ APP_ROUTES := by simpa using hroute
  by_cases hlen : 0 < t.length
  · simp [detectBasePath, hat, findRouteIdx, hmem, hlen]
  · have ht0 : t.length = 0 := by omega
    simp [detectBasePath, hat, findRouteIdx, hmem, ht0]

/-- Claim C10: for any two page paths whose first retained segment is
(case-insensitively) a known route name, `detectBasePath` gives the same
result under the same base tag — everything after the first segment is
irrelevant, because the first route-name occurrence is at index 0 and the
slice-before-route branch can never fire. -/
theorem known_route_first_segment_same (p1 p2 : String) (bt : Option String)
    (h1 : pathParts p1 ≠ [])
    (h1r : APP_ROUTES.contains (lowerL ((pathParts p1).headD [])) = true)
    (h2 : pathParts p2 ≠ [])
    (h2r : APP_ROUTES.contains (lowerL ((pathParts p2).headD [])) = true) :
    detectBasePath p1 bt = detectBasePath p2 bt := by
  rw [detectBasePath_known_route p1 bt h1 h1r,
    detectBasePath_known_route p2 bt h2 h2r]

theorem known_route_first_segment_same_witness :
    (pathParts "/login/extra/stuff" ≠ [] ∧
     APP_ROUTES.contains (lowerL ((pathParts "/login/extra/stuff").headD []))
       = true ∧
     pathParts "/Dashboard" ≠ [] ∧
     APP_ROUTES.contains (lowerL ((pathParts "/Dashboard").headD [])) = true) ∧
    detectBasePath "/login/extra/stuff" none = detectBasePath "/Dashboard" none :=
  ⟨⟨by decide, by decide, by decide, by decide⟩,
    known_route_first_segment_same "/login/extra/stuff" "/Dashboard" none
      (by decide) (by decide) (by decide) (by decide)⟩

/-! ### Escape pairs: occurrences of a two-character escape sequence -/

/-- Whether the list contains an adjacent pair `backslash, c`. -/
def hasPair (c : Char) : List Char → Bool
  | a :: b :: rest => if a = '\\' ∧ b = c then true else hasPair c (b :: rest)
  | _ => false

theorem hasPair_cons_false_iff {c a b : Char} {rest : List Char} :
    hasPair c (a :: b :: rest) = false
      ↔ ¬(a = '\\' ∧ b = c) ∧ hasPair c (b :: rest) = false := by
  by_cases h : a = '\\' ∧ b = c <;> simp [hasPair, h]

theorem hasPair_tail {c y : Char} {m : List Char}
    (h : hasPair c (y :: m) = false) : hasPair c m = false := by
  cases m with
  | nil => rfl
  | cons z zs => exact (hasPair_cons_false_iff.mp h).2

theorem hasPair_cons_true {c x : Char} {m : List Char}
    (h : hasPair c m = true) : hasPair c (x :: m) = true := by
  cases m with
  | nil => simp [hasPair] at h
  | cons z zs =>
    by_cases hx : x = '\\' ∧ z = c <;> simp [hasPair, hx, h]

theorem hasPair_append (c : Char) (t : List Char) :
    ∀ s : List Char, hasPair c (s ++ '\\' :: c :: t) = true := by
  intro s
  induction s with
  | nil => simp [hasPair]
  | cons x s2 ih => exact hasPair_cons_true ih

theorem hasPair_isInfix_iff {c : Char} {l : List Char} :
    hasPair c l = true ↔ ['\\', c] <:+: l := by
  constructor
  · intro h
    induction l with
    | nil => simp [hasPair] at h
    | cons a t ih =>
      cases t with
      | nil => simp [hasPair] at h
      | cons b rest =>
        by_cases hab : a = '\\' ∧ b = c
        · obtain ⟨ha, hb⟩ := hab
          subst ha; subst hb
          exact ⟨[], rest, rfl⟩
        · rw [hasPair, if_neg hab] at h
          exact List.infix_cons (ih h)
  · rintro ⟨s, t, hst⟩
    have h2 : s ++ ['\\', c] ++ t = s ++ '\\' :: c :: t := by simp
    rw [← hst, h2]
    exact hasPair_append c t s

theorem hasPair_infix_mono {c : Char} {l1 l2 : List Char}
    (hinf : l1 <:+: l2) (h : hasPair c l2 = false) : hasPair c l1 = false := by
  cases h1 : hasPair c l1 with
  | false => rfl
  | true =>
    rw [hasPair_isInfix_iff.mpr ((hasPair_isInfix_iff.mp h1).trans hinf)] at h
    exact absurd h (by decide)

/-! ### How `repl` interacts with escape pairs -/

theorem repl_eq_self {c r : Char} :
    ∀ {l : List Char}, hasPair c l = false → repl c r l = l := by
  intro l
  induction l with
  | nil => intro _; rfl
  | cons a t ih =>
    cases t with
    | nil => intro _; rfl
    | cons b rest =>
      intro h
      obtain ⟨h1, h2⟩ := hasPair_cons_false_iff.mp h
      rw [repl, if_neg h1, ih h2]

theorem repl_head_cases (c r b : Char) (rest : List Char) :
    (repl c r (b :: rest)).head? = some r
      ∨ (repl c r (b :: rest)).head? = some b := by
  cases rest with
  | nil => right; rfl
  | cons d rest2 =>
    by_cases h : b = '\\' ∧ d = c
    · left; simp [repl, h]
    · right; simp [repl, h]

theorem hasPair_repl_self_aux (c r : Char) (hr : r ≠ '\\') (hrc : r ≠ c) :
    ∀ (n : Nat) (l : List Char), l.length ≤ n →
      hasPair c (repl c r l) = false := by
  intro n
  induction n with
  | zero =>
    intro l hl
    have h0 : l = [] := List.length_eq_zero.mp (Nat.le_zero.mp hl)
    subst h0; rfl
  | succ n ih =>
    intro l hl
    rcases l with _ | ⟨a, _ | ⟨b, rest⟩⟩
    · rfl
    · rfl
    · have hlen : rest.length + 2 ≤ n + 1 := by simpa using hl
      by_cases h : a = '\\' ∧ b = c
      · rw [show repl c r (a :: b :: rest) = r :: repl c r rest from by
          rw [repl, if_pos h]]
        cases hrep : repl c r rest with
        | nil => rfl
        | cons x xs =>
          have hx : hasPair c (x :: xs) = false := by
            rw [← hrep]
            exact ih rest (by omega)
          rw [hasPair, if_neg (fun hc => hr hc.1), hx]
      · rw [show repl c r (a :: b :: rest) = a :: repl c r (b :: rest) from by
          rw [repl, if_neg h]]
        have hrec : hasPair c (repl c r (b :: rest)) = false :=
          ih (b :: rest) (by simp; omega)
        cases hrep : repl c r (b :: rest) with
        | nil => rfl
        | cons x xs =>
          have hx : hasPair c (x :: xs) = false := by rw [← hrep]; exact hrec
          have hxc : ¬(a = '\\' ∧ x = c) := by
            rcases repl_head_cases c r b rest with hh | hh <;> rw [hrep] at hh <;>
              simp only [List.head?_cons, Option.some.injEq] at hh <;> subst hh
            · rintro ⟨-, hc2⟩; exact hrc hc2
            · rintro ⟨ha, hb⟩; exact h ⟨ha, hb⟩
          rw [hasPair, if_neg hxc, hx]

theorem hasPair_repl_self (c r : Char) (hr : r ≠ '\\') (hrc : r ≠ c)
    (l : List Char) : hasPair c (repl c r l) = false :=
  hasPair_repl_self_aux c r hr hrc l.length l (Nat.le_refl _)

theorem hasPair_repl_other_aux (c c2 r : Char) (hr : r ≠ '\\') (hrc : r ≠ c2) :
    ∀ (n : Nat) (l : List Char), l.length ≤ n → hasPair c2 l = false →
      hasPair c2 (repl c r l) = false := by
  intro n
  induction n with
  | zero =>
    intro l hl _
    have h0 : l = [] := List.length_eq_zero.mp (Nat.le_zero.mp hl)
    subst h0; rfl
  | succ n ih =>
    intro l hl h0
    rcases l with _ | ⟨a, _ | ⟨b, rest⟩⟩
    · rfl
    · rfl
    · have hlen : rest.length + 2 ≤ n + 1 := by simpa using hl
      obtain ⟨hnp, htail⟩ := hasPair_cons_false_iff.mp h0
      by_cases h : a = '\\' ∧ b = c
      · rw [show repl c r (a :: b :: rest) = r :: repl c r rest from by
          rw [repl, if_pos h]]
        cases hrep : repl c r rest with
        | nil => rfl
        | cons x xs =>
          have hx : hasPair c2 (x :: xs) = false := by
            rw [← hrep]
            exact ih rest (by omega) (hasPair_tail htail)
          rw [hasPair, if_neg (fun hc => hr hc.1), hx]
      · rw [show repl c r (a :: b :: rest) = a :: repl c r (b :: rest) from by
          rw [repl, if_neg h]]
        have hrec : hasPair c2 (repl c r (b :: rest)) = false :=
          ih (b :: rest) (by simp; omega) htail
        cases hrep : repl c r (b :: rest) with
        | nil => rfl
        | cons x xs =>
          have hx : hasPair c2 (x :: xs) = false := by rw [← hrep]; exact hrec
          have hxc : ¬(a = '\\' ∧ x = c2) := by
            rcases repl_head_cases c r b rest with hh | hh <;> rw [hrep] at hh <;>
              simp only [List.head?_cons, Option.some.injEq] at hh <;> subst hh
            · rintro ⟨-, hc2⟩; exact hrc hc2
            · exact hnp
          rw [hasPair, if_neg hxc, hx]

theorem hasPair_repl_other (c c2 r : Char) (hr : r ≠ '\\') (hrc : r ≠ c2)
    (l : List Char) (h : hasPair c2 l = false) :
    hasPair c2 (repl c r l) = false :=
  hasPair_repl_other_aux c c2 r hr hrc l.length l (Nat.le_refl _) h

/-- After the two escape-replacement passes and the final trim, no literal
`backslash n` pair remains. -/
theorem post_repl_no_pair_n (b : List Char) :
    hasPair 'n' (trimL (repl 't' '\t' (repl 'n' '\n' b))) = false :=
  hasPair_infix_mono (trimL_isInfix _)
    (hasPair_repl_other 't' 'n' '\t' (by decide) (by decide) _
      (hasPair_repl_self 'n' '\n' (by decide) (by decide) b))

/-- After the two escape-replacement passes and the final trim, no literal
`backslash t` pair remains. -/
theorem post_repl_no_pair_t (b : List Char) :
    hasPair 't' (trimL (repl 't' '\t' (repl 'n' '\n' b))) = false :=
  hasPair_infix_mono (trimL_isInfix _)
    (hasPair_repl_self 't' '\t' (by decide) (by decide) _)

/-! ### Claim C1 -/

theorem normalizeL_idem_of_no_marker (l : List Char)
    (h : hasContentMarker (normalizeL l) = false) :
    normalizeL (normalizeL l) = normalizeL l := by
  obtain ⟨B, hB⟩ : ∃ B, normalizeL l = trimL (repl 't' '\t' (repl 'n' '\n' B)) :=
    ⟨if hasContentMarker (trimL l) then
        stripTrailingQuote (dropOptQuote ((trimL l).drop 8))
      else trimL l, by simp only [normalizeL]⟩
  have htr : trimL (normalizeL l) = normalizeL l := by rw [hB]; exact trimL_idem _
  have hn : hasPair 'n' (normalizeL l) = false := by
    rw [hB]; exact post_repl_no_pair_n B
  have ht : hasPair 't' (normalizeL l) = false := by
    rw [hB]; exact post_repl_no_pair_t B
  calc normalizeL (normalizeL l)
      = trimL (repl 't' '\t' (repl 'n' '\n'
          (if hasContentMarker (trimL (normalizeL l)) then
            stripTrailingQuote (dropOptQuote ((trimL (normalizeL l)).drop 8))
          else trimL (normalizeL l)))) := by
        conv_lhs => rw [normalizeL]
    _ = trimL (repl 't' '\t' (repl 'n' '\n' (normalizeL l))) := by
        rw [htr, h]
        simp
    _ = normalizeL l := by
        rw [repl_eq_self hn, repl_eq_self ht, htr]

/-- Claim C1 counterexample: the single-segment cleanup is not idempotent;
on the input `content=content='abc'` one pass yields `content='abc`,
which a second pass strips again to `abc`. -/
theorem normalize_not_idempotent :
    normalizeResponseText (normalizeResponseText "content=content=\x27abc\x27")
      ≠ normalizeResponseText "content=content=\x27abc\x27" := by decide

/-- Claim C1 (amended): the single-segment cleanup is idempotent on every
string whose normalized result does not itself begin, case-insensitively,
with the marker `content=`. -/
theorem normalize_idempotent_unless_marker (x : String)
    (h : hasContentMarker (normalizeResponseText x).data = false) :
    normalizeResponseText (normalizeResponseText x) = normalizeResponseText x :=
  congrArg String.mk (normalizeL_idem_of_no_marker x.data h)

theorem normalize_idempotent_unless_marker_witness :
    hasContentMarker (normalizeResponseText " a\\nb ").data = false ∧
    normalizeResponseText (normalizeResponseText " a\\nb ")
      = normalizeResponseText " a\\nb " :=
  ⟨by decide, normalize_idempotent_unless_marker _ (by decide)⟩

/-! ### Claim C6 -/

theorem toLower_of_isWs {c : Char} (h : isWs c = true) : Char.toLower c = c := by
  have h2 : ((c = ' ' ∨ c = '\t') ∨ c = '\x0d') ∨ c = '\n' := by
    simpa [isWs, Char.isWhitespace] using h
  rcases h2 with ((h2 | h2) | h2) | h2 <;> subst h2 <;> decide

theorem isWs_false_of_toLower_mem {c : Char}
    (h : Char.toLower c ∈ contentMarker) : isWs c = false := by
  cases hw : isWs c with
  | false => rfl
  | true =>
    rw [toLower_of_isWs hw] at h
    have hall : ∀ d ∈ contentMarker, isWs d = false := by decide
    have h3 := hall c h
    rw [hw] at h3
    exact absurd h3 (by decide)

theorem trimRightL_append_of_all {u : List Char}
    (hu : ∀ c ∈ u, isWs c = false) (v : List Char) :
    trimRightL (u ++ v) = u ++ trimRightL v := by
  unfold trimRightL
  rw [List.reverse_append, List.dropWhile_append]
  by_cases hv : (v.reverse.dropWhile isWs).isEmpty
  · rw [if_pos hv,
      dropWhile_eq_self_of_all (fun c hc => hu c (by simpa using hc)),
      List.reverse_reverse, List.isEmpty_iff.mp hv]
    simp
  · rw [if_neg hv, List.reverse_append, List.reverse_reverse]

theorem hasContentMarker_trimL {l : List Char}
    (h : hasContentMarker l = true) : hasContentMarker (trimL l) = true := by
  have h8 : contentMarker.length = 8 := by decide
  have hpre : contentMarker <+: lowerL l :=
    List.isPrefixOf_iff_prefix.mp (by simpa [hasContentMarker] using h)
  obtain ⟨t, ht⟩ := hpre
  have huv : l.take 8 ++ l.drop 8 = l := List.take_append_drop 8 l
  have hmapu : lowerL (l.take 8) = contentMarker := by
    have h1 : lowerL (l.take 8) = (lowerL l).take 8 := by
      simp [lowerL, List.map_take]
    rw [h1, ← ht, List.take_left' h8]
  have hun : ∀ c ∈ l.take 8, isWs c = false := by
    intro c hc
    apply isWs_false_of_toLower_mem
    rw [← hmapu]
    exact List.mem_map_of_mem _ hc
  have hulen : (l.take 8).length = 8 := by
    have h2 := congrArg List.length hmapu
    simpa [lowerL, h8] using h2
  have htl : trimLeftL l = l := by
    apply dropWhile_eq_self_of_head
    intro a ha
    rcases hu0 : l.take 8 with _ | ⟨c0, u2⟩
    · rw [hu0] at hulen; simp at hulen
    · rw [← huv, hu0, head?_append_left (by simp)] at ha
      simp only [List.head?_cons, Option.some.injEq] at ha
      have := hun c0 (by rw [hu0]; simp)
      rwa [ha] at this
  have htrim : trimL l = l.take 8 ++ trimRightL (l.drop 8) := by
    rw [trimL, htl]
    conv_lhs => rw [← huv]
    exact trimRightL_append_of_all hun _
  rw [htrim, hasContentMarker]
  have hlow : lowerL (l.take 8 ++ trimRightL (l.drop 8))
      = contentMarker ++ lowerL (trimRightL (l.drop 8)) := by
    simp only [lowerL, List.map_append]
    rw [show List.map Char.toLower (l.take 8) = contentMarker from hmapu]
  rw [hlow]
  exact List.isPrefixOf_iff_prefix.mpr (List.prefix_append _ _)

/-- Claim C6 counterexample: for an input that begins with the marker but
carries trailing whitespace, the claim's described pipeline (which never
trims before stripping the trailing quote) disagrees with the code: the
code first trims, so it also strips the quote. -/
theorem wrapper_cleanup_counterexample :
    hasContentMarker "content=\x27Hello\\nWorld\x27 ".data = true ∧
    normalizeResponseText "content=\x27Hello\\nWorld\x27 " = "Hello\nWorld" ∧
    describedWrapperCleanup "content=\x27Hello\\nWorld\x27 " = "Hello\nWorld\x27" ∧
    normalizeResponseText "content=\x27Hello\\nWorld\x27 "
      ≠ describedWrapperCleanup "content=\x27Hello\\nWorld\x27 " :=
  ⟨by decide, by decide, by decide, by decide⟩

/-- Claim C6 (amended): for every input beginning (case-insensitively) with
the marker `content=`, the cleanup first trims surrounding whitespace,
then strips the marker and an optional immediately following single quote,
strips one trailing single quote if present, replaces the literal escape
pairs by real newline and tab, and trims the result. -/
theorem wrapper_cleanup_amended (s : String)
    (h : hasContentMarker s.data = true) :
    normalizeResponseText s = amendedWrapperCleanup s := by
  have h2 := hasContentMarker_trimL h
  simp only [normalizeResponseText, normalizeL, amendedWrapperCleanup, h2,
    if_true]

theorem wrapper_cleanup_amended_witness :
    hasContentMarker "content=\x27Hello\\nWorld\x27".data = true ∧
    normalizeResponseText "content=\x27Hello\\nWorld\x27" = "Hello\nWorld" :=
  ⟨by decide, (wrapper_cleanup_amended _ (by decide)).trans (by decide)⟩

end KenyaLaw
